import Mathlib

/-!
Verification development for the `ismodel` information-security model.

The definitions below are a shallow embedding of `src/ismodel.py`
(and its historical German twin `src/infosec.py`): the ordered
protection-need categories, the `ProtectionNeed` value type with its
combination algebra (`__add__` / `determine`), the hierarchical
`Structure` nodes with their recursive effective-need aggregation, the
`SecondaryStructure` nodes with cross-layer dependents and the
dependent closure, the model's identifier assignment, and the CSV
fieldname computation.

Python's three protection-need accessors (`integrity`, `availability`,
`confidentiality`) are verbatim copies of one another over distinct
fields; the embedding models the accessor once over a single generic
dimension field called `need`.  Python object identity for structure
nodes is modelled by a `label : Nat` on each tree node.  The parent
back-reference `self._parent` is modelled by passing the relevant
parent attribute (raw declared need, effective hidden flag) down as an
explicit argument, which is exactly the data those accessors read.
-/

/-- Embeds `ProtectionNeedCategory.__init__`: a designation plus an
integer level, 0 for a bottom category and `subordinate.level + 1`
otherwise. -/
structure ProtectionNeedCategory where
  designation : String
  level : Nat
deriving DecidableEq, Repr

/-- The category constructor: `level` is computed from the optional
subordinate category, as in `ProtectionNeedCategory.__init__`. -/
def mkCategory (designation : String)
    (subordinate : Option ProtectionNeedCategory) : ProtectionNeedCategory :=
  ⟨designation, match subordinate with
    | none => 0
    | some s => s.level + 1⟩

/-- `NORMAL = ProtectionNeedCategory("Normal")`. -/
def NORMAL : ProtectionNeedCategory := mkCategory "Normal" none

/-- `HIGH = ProtectionNeedCategory("Hoch", NORMAL)`. -/
def HIGH : ProtectionNeedCategory := mkCategory "Hoch" (some NORMAL)

/-- `VERY_HIGH = ProtectionNeedCategory("Sehr hoch", HIGH)`. -/
def VERY_HIGH : ProtectionNeedCategory := mkCategory "Sehr hoch" (some HIGH)

/-- The three module-level category constants of `ismodel.py`. -/
def categoryConstants : List ProtectionNeedCategory := [NORMAL, HIGH, VERY_HIGH]

/-- Embeds `ProtectionNeed.__init__`: a category together with the
remark strings, stored as given (`self.remarks = list(remarks)`). -/
structure ProtectionNeed where
  category : ProtectionNeedCategory
  remarks : List String
deriving DecidableEq, Repr

namespace ProtectionNeed

/-- Embeds `ProtectionNeed.__add__`.  The strictly higher level wins
outright; on a tie the result keeps the left category and the
deduplicated concatenation of both remark lists, modelling
`set(self.remarks + other.remarks)` (a Python set is unordered; the
embedding picks the first-occurrence order). -/
def add (a b : ProtectionNeed) : ProtectionNeed :=
  if a.category.level < b.category.level then b
  else if b.category.level < a.category.level then a
  else ⟨a.category, (a.remarks ++ b.remarks).dedup⟩

/-- The loop body of `ProtectionNeed.determine`: `None` values are
skipped; the first present value seeds the accumulator; afterwards
`protection_need += pn` runs, which by `__iadd__` is
`pn.__add__(protection_need)`, i.e. the new value is the LEFT argument
of `add`. -/
def determineAux (acc : Option ProtectionNeed) :
    List (Option ProtectionNeed) → Option ProtectionNeed
  | [] => acc
  | pn? :: rest =>
    match pn? with
    | none => determineAux acc rest
    | some pn =>
      match acc with
      | none => determineAux (some pn) rest
      | some a => determineAux (some (add pn a)) rest

/-- Embeds `ProtectionNeed.determine` (classmethod), starting from the
`None` accumulator. -/
def determine (pns : List (Option ProtectionNeed)) : Option ProtectionNeed :=
  determineAux none pns

end ProtectionNeed

/-!
## Structural nodes

`Structure.__init__` stores a name, a hidden flag, one optional
declared `ProtectionNeed` per dimension, a parent reference and a set
of children (the constructor inserts the node into its parent's
children set).  The embedding is the resulting tree: each node carries
a `label` (modelling Python object identity), its own `hidden` flag,
its own declared need for one generic dimension, and the list of its
direct children.
-/

/-- A structural node as built by `Structure.__init__`: object
identity label, own hidden flag, own declared need for one dimension,
direct children. -/
inductive Structure where
  | node (label : Nat) (hidden : Bool) (need : Option ProtectionNeed)
      (children : List Structure)

namespace Structure

/-- The label of a node. -/
def label : Structure → Nat
  | .node l _ _ _ => l

/-- The node's own hidden flag (`self._hidden`). -/
def ownHidden : Structure → Bool
  | .node _ h _ _ => h

/-- The node's own declared need (`self._confidentiality` /
`self._integrity` / `self._availability`). -/
def need : Structure → Option ProtectionNeed
  | .node _ _ d _ => d

/-- The node's direct children (`self._children`). -/
def directChildren : Structure → List Structure
  | .node _ _ _ cs => cs

mutual

/-- Embeds the `Structure.children` property: for every direct child,
the child itself plus (recursively) the child's `children` property. -/
def childrenSet : Structure → List Structure
  | .node _ _ _ cs => childrenSetList cs

/-- The loop of `Structure.children` over a list of direct children. -/
def childrenSetList : List Structure → List Structure
  | [] => []
  | c :: cs => (c :: childrenSet c) ++ childrenSetList cs

end

mutual

/-- Embeds `Structure.confidentiality` (identically `integrity`,
`availability`): `determine` over the parent's RAW declared need
(`self._parent._confidentiality`, passed here as `parentNeed`, `none`
for a root), the node's own declared need, and the effective needs of
all direct children, each computed with this node's raw declared need
as its parent contribution. -/
def effectiveNeed (parentNeed : Option ProtectionNeed) :
    Structure → Option ProtectionNeed
  | .node _ _ d cs =>
    ProtectionNeed.determine (parentNeed :: d :: effectiveNeedList d cs)

/-- The `map` over `self._children` inside `Structure.confidentiality`. -/
def effectiveNeedList (parentNeed : Option ProtectionNeed) :
    List Structure → List (Option ProtectionNeed)
  | [] => []
  | c :: cs => effectiveNeed parentNeed c :: effectiveNeedList parentNeed cs

end

/-- Embeds the `Structure.hidden` property: the parent's EFFECTIVE
hidden flag (passed down as `parentHidden`, `false` for a root) or-ed
with the node's own flag. -/
def hiddenEff (parentHidden : Bool) (t : Structure) : Bool :=
  parentHidden || t.ownHidden

/-- The subtree of the tree `t` reached by following a list of child
indices (indices into the direct-children lists).  This is bookkeeping
for addressing a node inside a tree, not code from the source. -/
def subtreeAt : Structure → List Nat → Option Structure
  | t, [] => some t
  | t, i :: is =>
    match t.directChildren.get? i with
    | some c => subtreeAt c is
    | none => none

/-- The effective need of the node addressed by a path, computed as
the accessors do: the node at the path gets its parent's raw declared
need as parent contribution (`none` when the path is empty, i.e. for
the root whose `self._parent is None`). -/
def effectiveNeedAt (parentNeed : Option ProtectionNeed) :
    Structure → List Nat → Option (Option ProtectionNeed)
  | t, [] => some (effectiveNeed parentNeed t)
  | t, i :: is =>
    match t.directChildren.get? i with
    | some c => effectiveNeedAt t.need c is
    | none => none

/-- The effective hidden flag of the node addressed by a path,
accumulating the `or` of the own flags along the path as the `hidden`
property does upward. -/
def hiddenEffAt (parentHidden : Bool) : Structure → List Nat → Option Bool
  | t, [] => some (hiddenEff parentHidden t)
  | t, i :: is =>
    match t.directChildren.get? i with
    | some c => hiddenEffAt (hiddenEff parentHidden t) c is
    | none => none

end Structure

namespace Structure

/-- The labels of all strict structural descendants of a node,
i.e. of the nodes returned by the `children` property. -/
def descendantLabels (t : Structure) : List Nat :=
  (childrenSet t).map label

mutual

/-- Follow a Python object reference by label: search a structure tree
for the node labelled `l`, yielding the raw declared need of its
parent (`pd` for the tree's root) together with the node's subtree.
This is bookkeeping that recovers, for a referenced node `d`, the data
`d._parent._confidentiality` and the subtree below `d` that the
accessors on `d` read. -/
def findCtx (l : Nat) (pd : Option ProtectionNeed) :
    Structure → Option (Option ProtectionNeed × Structure)
  | .node lab h d cs =>
    if lab = l then some (pd, .node lab h d cs) else findCtxList l d cs

/-- `findCtx` over a list of sibling subtrees, first match wins. -/
def findCtxList (l : Nat) (pd : Option ProtectionNeed) :
    List Structure → Option (Option ProtectionNeed × Structure)
  | [] => none
  | c :: cs =>
    match findCtx l pd c with
    | some r => some r
    | none => findCtxList l pd cs

end

/-- Resolve a label in a forest of root trees (roots have no parent,
so their parent contribution is `none`). -/
def findInForest (f : List Structure) (l : Nat) :
    Option (Option ProtectionNeed × Structure) :=
  findCtxList l none f

/-- The effective need of the node labelled `l` of the forest `f`,
exactly what `d.confidentiality` computes for a referenced object `d`. -/
def effectiveNeedOfLabel (f : List Structure) (l : Nat) :
    Option ProtectionNeed :=
  match findInForest f l with
  | some (pd, s) => effectiveNeed pd s
  | none => none

end Structure

/-!
## Secondary structural nodes

`SecondaryStructure.__init__` additionally stores a set `_dependent`
of references to nodes of the layer below.  The embedding stores the
referenced nodes' labels; the referenced layer itself is a forest
`f : List Structure` passed to the accessors.
-/

/-- A secondary structural node: label, own hidden flag, own declared
need, the labels of the declared dependents (`self._dependent`), and
the direct structural children. -/
inductive SecondaryStructure where
  | node (label : Nat) (hidden : Bool) (need : Option ProtectionNeed)
      (dependent : List Nat) (children : List SecondaryStructure)

namespace SecondaryStructure

/-- The label of a node. -/
def label : SecondaryStructure → Nat
  | .node l _ _ _ _ => l

/-- The node's own declared need. -/
def need : SecondaryStructure → Option ProtectionNeed
  | .node _ _ d _ _ => d

/-- The labels of the explicitly declared dependents (`self._dependent`). -/
def dependentRefs : SecondaryStructure → List Nat
  | .node _ _ _ deps _ => deps

/-- The node's direct structural children (`self._children`). -/
def directChildren : SecondaryStructure → List SecondaryStructure
  | .node _ _ _ _ cs => cs

mutual

/-- The inherited `children` property on secondary nodes: every direct
child plus, recursively, that child's `children`. -/
def childrenSet : SecondaryStructure → List SecondaryStructure
  | .node _ _ _ _ cs => childrenSetList cs

/-- The loop of the `children` property over a list of direct children. -/
def childrenSetList : List SecondaryStructure → List SecondaryStructure
  | [] => []
  | c :: cs => (c :: childrenSet c) ++ childrenSetList cs

end

/-- Every member of `childrenSetList cs` is structurally smaller than
`cs` itself (the list of subtrees it was collected from). -/
theorem sizeOf_lt_of_mem_childrenSetList :
    ∀ (cs : List SecondaryStructure) (s : SecondaryStructure),
      s ∈ childrenSetList cs → sizeOf s < sizeOf cs
  | c :: cs, s, h => by
    rw [childrenSetList] at h
    rcases List.mem_append.mp h with h | h
    · rcases List.mem_cons.mp h with rfl | h
      · cases cs <;> simp <;> omega
      · cases c with
        | node lab hid d deps ccs =>
          rw [childrenSet] at h
          have := sizeOf_lt_of_mem_childrenSetList ccs s h
          simp at this ⊢
          omega
    · have := sizeOf_lt_of_mem_childrenSetList cs s h
      simp at this ⊢
      omega

/-- Every member of `childrenSet t` is structurally smaller than `t`. -/
theorem sizeOf_lt_of_mem_childrenSet (t s : SecondaryStructure)
    (h : s ∈ childrenSet t) : sizeOf s < sizeOf t := by
  cases t with
  | node lab hid d deps cs =>
    rw [childrenSet] at h
    have := sizeOf_lt_of_mem_childrenSetList cs s h
    simp
    omega

/-- The contribution of one declared dependent to the closure: the
referenced node itself (`dependent.add(d)`) plus all its structural
descendants (`dependent |= d.children`). -/
def dependentContrib (f : List Structure) (l : Nat) : List Nat :=
  l ::
    (match Structure.findInForest f l with
     | some (_, s) => Structure.descendantLabels s
     | none => [])

/-- Embeds the `SecondaryStructure.dependent` property: the union of
the contributions of all declared dependents, together with the
`dependent` closures of ALL structural descendants (the code iterates
`self.children`, the transitive descendant set, not only the direct
children).  The Python result is a set; it is modelled as a
deduplicated list, so each member occurs exactly once and the order is
an artifact of the embedding, as the unspecified iteration order of a
Python set is of the source. -/
def dependent (f : List Structure) (t : SecondaryStructure) : List Nat :=
  ((t.dependentRefs.foldr (fun l acc => dependentContrib f l ++ acc) [])
      ++ ((childrenSet t).attach.foldr
          (fun s acc => dependent f s.1 ++ acc) [])).dedup
termination_by sizeOf t
decreasing_by exact sizeOf_lt_of_mem_childrenSet t s.1 s.2

mutual

/-- Embeds `SecondaryStructure.confidentiality` (identically
`integrity`, `availability`): `determine` over the parent's raw
declared need, the own declared need, the effective needs of every
node in the dependent closure (each computed in its own context in
the lower-layer forest; each closure member contributes exactly once,
in the closure list's order — the iteration order of a Python set is
unspecified), and the effective needs of the direct structural
children. -/
def effectiveNeed (f : List Structure) (parentNeed : Option ProtectionNeed) :
    SecondaryStructure → Option ProtectionNeed
  | .node lab h d deps cs =>
    ProtectionNeed.determine
      (parentNeed :: d ::
        ((dependent f (.node lab h d deps cs)).map
            (Structure.effectiveNeedOfLabel f) ++
          effectiveNeedList f d cs))

/-- The `map` over `self._children` inside the accessor. -/
def effectiveNeedList (f : List Structure) (parentNeed : Option ProtectionNeed) :
    List SecondaryStructure → List (Option ProtectionNeed)
  | [] => []
  | c :: cs => effectiveNeed f parentNeed c :: effectiveNeedList f parentNeed cs

end

end SecondaryStructure

namespace Structure

mutual

/-- `true` iff neither the node itself nor any structural descendant
declares the dimension (no `_confidentiality` etc. set anywhere in the
subtree). -/
def silent : Structure → Bool
  | .node _ _ d cs => d.isNone && silentList cs

/-- `silent` over a list of subtrees. -/
def silentList : List Structure → Bool
  | [] => true
  | c :: cs => silent c && silentList cs

end

end Structure

namespace SecondaryStructure

mutual

/-- `true` iff neither the secondary node itself nor any structural
descendant declares the dimension. -/
def silent : SecondaryStructure → Bool
  | .node _ _ d _ cs => d.isNone && silentList cs

/-- `silent` over a list of subtrees. -/
def silentList : List SecondaryStructure → Bool
  | [] => true
  | c :: cs => silent c && silentList cs

end

end SecondaryStructure

/-!
## Model: identifier assignment and CSV fieldnames

`Model._set_structure_ids` walks one layer sequence with
`enumerate(structures, start=1)` and assigns the position to every
node whose `_id` is still `None`, unless the node's effective `hidden`
is true and `skip_hidden` was requested.  For this operation only a
node's current optional id and its effective hidden flag matter, so a
layer entry is modelled by exactly those two values.
-/

/-- One entry of a layer sequence as seen by
`Model._set_structure_ids`: the node's current `_id` and its effective
`hidden` property value. -/
structure SEntry where
  id : Option Nat
  hidden : Bool
deriving DecidableEq, Repr

/-- The loop of `Model._set_structure_ids`, with `i` the current
1-based position from `enumerate(structures, start=1)`. -/
def setStructureIdsFrom (skipHidden : Bool) (i : Nat) :
    List SEntry → List SEntry
  | [] => []
  | s :: rest =>
    (if s.id.isNone && !(s.hidden && skipHidden) then { s with id := some i }
     else s) :: setStructureIdsFrom skipHidden (i + 1) rest

/-- Embeds `Model._set_structure_ids(structures, skip_hidden)`:
positions start at 1. -/
def setStructureIds (structures : List SEntry) (skipHidden : Bool) :
    List SEntry :=
  setStructureIdsFrom skipHidden 1 structures

/-- One entry of a layer sequence as seen by
`Model._write_structure_dicts_to_csv`: the node's effective `hidden`
value and the key list of its `to_dict()` record. -/
structure CsvRow where
  hidden : Bool
  record : List String
deriving DecidableEq, Repr

/-- The records emitted by `Model._write_structure_dicts_to_csv`
(`data_dicts`): one `to_dict()` record per node, skipping nodes whose
effective `hidden` is true when `skip_hidden` is requested. -/
def emittedRecords (structures : List CsvRow) (skipHidden : Bool) :
    List (List String) :=
  (structures.filter (fun s => !(s.hidden && skipHidden))).map CsvRow.record

/-- The fieldnames loop of `Model._write_structure_dicts_to_csv`:
starting from `[]`, a record's key list replaces the current
fieldnames exactly when it has strictly more keys
(`if len(keys) > len(fieldnames): fieldnames = keys`). -/
def csvFieldnames (records : List (List String)) : List String :=
  records.foldl
    (fun fieldnames keys =>
      if fieldnames.length < keys.length then keys else fieldnames) []

/-- The header row of the CSV file written for one layer. -/
def csvHeader (structures : List CsvRow) (skipHidden : Bool) : List String :=
  csvFieldnames (emittedRecords structures skipHidden)

/-!
## Definitions taken from the spec's words, for comparison

The next two definitions are NOT translations of the source; they
formalize what the specification text says, so that theorems can
compare them with the source-derived definitions above.
-/

/-- Spec's words (§6 serialization): "header row being the union of
keys seen across all emitted rows (first-seen order)". -/
def unionFirstSeen (records : List (List String)) : List String :=
  records.foldl
    (fun acc keys => acc ++ keys.filter (fun k => !(acc.contains k))) []

/-- Spec's words (§4.1 determine): "left-fold `combine` over the
non-absent values in argument order, skipping absent …  values;
returns absent if all inputs are absent". -/
def determineSpecFold (pns : List (Option ProtectionNeed)) :
    Option ProtectionNeed :=
  match pns.filterMap id with
  | [] => none
  | x :: xs => some (xs.foldl ProtectionNeed.add x)

namespace SecondaryStructure

/-- The effective need of the secondary node addressed by a path of
child indices, the node at the path getting its parent's raw declared
need as parent contribution (`none` for the root). -/
def effectiveNeedAt (f : List Structure) (parentNeed : Option ProtectionNeed) :
    SecondaryStructure → List Nat → Option (Option ProtectionNeed)
  | t, [] => some (effectiveNeed f parentNeed t)
  | t, i :: is =>
    match t.directChildren.get? i with
    | some c => effectiveNeedAt f t.need c is
    | none => none

end SecondaryStructure

/-- Equality of optional `ProtectionNeed` VALUES: same presence, same
category, same set of remarks.  Remark lists stand in for Python's
unordered sets, so value equality ignores their order. -/
def sameNeed : Option ProtectionNeed → Option ProtectionNeed → Prop
  | none, none => True
  | some a, some b => a.category = b.category ∧ ∀ r, r ∈ a.remarks ↔ r ∈ b.remarks
  | _, _ => False

/-!
## Theorems

Helper lemmas first, then one theorem per claim (with witnesses and
counterexamples where required).
-/

namespace ProtectionNeed

/-- Once the accumulator of `determine` is present it stays present. -/
theorem determineAux_some :
    ∀ (pns : List (Option ProtectionNeed)) (a : ProtectionNeed),
      ∃ b, determineAux (some a) pns = some b
  | [], a => ⟨a, rfl⟩
  | none :: rest, a => by
    rw [determineAux]
    exact determineAux_some rest a
  | some pn :: rest, a => by
    rw [determineAux]
    exact determineAux_some rest (add pn a)

/-- `determine` is absent exactly when every input is absent. -/
theorem determine_eq_none_iff (pns : List (Option ProtectionNeed)) :
    determine pns = none ↔ ∀ x ∈ pns, x = none := by
  induction pns with
  | nil => simp [determine, determineAux]
  | cons x rest ih =>
    cases x with
    | none =>
      rw [determine, determineAux.eq_def]
      simp only [List.mem_cons]
      constructor
      · intro h y hy
        rcases hy with rfl | hy
        · rfl
        · exact (ih.mp h) y hy
      · intro h
        exact ih.mpr (fun y hy => h y (Or.inr hy))
    | some pn =>
      rw [determine, determineAux.eq_def]
      obtain ⟨b, hb⟩ := determineAux_some rest pn
      simp only [hb]
      constructor
      · intro h; cases h
      · intro h
        cases h (some pn) (List.mem_cons_self _ _)

/-- The remark list produced by `add` is duplicate-free whenever both
arguments' remark lists are. -/
theorem add_remarks_nodup (a b : ProtectionNeed)
    (ha : a.remarks.Nodup) (hb : b.remarks.Nodup) :
    (add a b).remarks.Nodup := by
  rw [add]
  split
  · exact hb
  · split
    · exact ha
    · exact List.nodup_dedup _

/-- `determineAux` preserves duplicate-freeness of remark lists. -/
theorem determineAux_remarks_nodup :
    ∀ (pns : List (Option ProtectionNeed)) (acc : Option ProtectionNeed),
      (∀ pn : ProtectionNeed, some pn ∈ pns → pn.remarks.Nodup) →
      (∀ a : ProtectionNeed, acc = some a → a.remarks.Nodup) →
      ∀ pn, determineAux acc pns = some pn → pn.remarks.Nodup
  | [], acc, _, hacc, pn, h => hacc pn h
  | none :: rest, acc, hmem, hacc, pn, h => by
    exact determineAux_remarks_nodup rest acc
      (fun q hq => hmem q (List.mem_cons_of_mem _ hq)) hacc pn h
  | some p :: rest, acc, hmem, hacc, pn, h => by
    have hp : p.remarks.Nodup := hmem p (List.mem_cons_self _ _)
    cases acc with
    | none =>
      exact determineAux_remarks_nodup rest (some p)
        (fun q hq => hmem q (List.mem_cons_of_mem _ hq))
        (fun a ha => by cases ha; exact hp) pn h
    | some a =>
      exact determineAux_remarks_nodup rest (some (add p a))
        (fun q hq => hmem q (List.mem_cons_of_mem _ hq))
        (fun x hx => by
          cases hx
          exact add_remarks_nodup p a hp (hacc a rfl)) pn h

end ProtectionNeed

/-- C1: for every pair of ProtectionNeed values `a` and `b`,
`combine(a, b)` returns `b` when `a.category.level < b.category.level`
(`a`'s remarks are discarded), returns `a` when
`a.category.level > b.category.level`, and on equal levels returns a
new ProtectionNeed with the same category whose remarks are the
deduplicated union of `a`'s and `b`'s remarks; in particular
`combine(ProtectionNeed(Normal, "a"), ProtectionNeed(High, "b")) =
ProtectionNeed(High, {"b"})`. -/
theorem combine_order_and_tie_union (a b : ProtectionNeed) :
    (a.category.level < b.category.level → ProtectionNeed.add a b = b) ∧
    (a.category.level > b.category.level → ProtectionNeed.add a b = a) ∧
    (a.category.level = b.category.level →
      (ProtectionNeed.add a b).category = a.category ∧
      (ProtectionNeed.add a b).remarks.Nodup ∧
      (∀ r, r ∈ (ProtectionNeed.add a b).remarks ↔
        r ∈ a.remarks ∨ r ∈ b.remarks)) ∧
    ProtectionNeed.add ⟨NORMAL, ["a"]⟩ ⟨HIGH, ["b"]⟩ = ⟨HIGH, ["b"]⟩ := by
  refine ⟨?_, ?_, ?_, by decide⟩
  · intro h
    rw [ProtectionNeed.add, if_pos h]
  · intro h
    rw [ProtectionNeed.add, if_neg (by omega), if_pos h]
  · intro h
    rw [ProtectionNeed.add, if_neg (by omega), if_neg (by omega)]
    refine ⟨rfl, List.nodup_dedup _, fun r => ?_⟩
    rw [List.mem_dedup, List.mem_append]

/-- Witness for C1 at concrete inputs, discharging each hypothesis. -/
theorem combine_order_and_tie_union_witness :
    ProtectionNeed.add ⟨NORMAL, ["x"]⟩ ⟨HIGH, ["y"]⟩ = ⟨HIGH, ["y"]⟩ ∧
    ProtectionNeed.add ⟨VERY_HIGH, ["x"]⟩ ⟨HIGH, ["y"]⟩ = ⟨VERY_HIGH, ["x"]⟩ ∧
    ((ProtectionNeed.add ⟨HIGH, ["x"]⟩ ⟨HIGH, ["y"]⟩).category = HIGH ∧
      (ProtectionNeed.add ⟨HIGH, ["x"]⟩ ⟨HIGH, ["y"]⟩).remarks.Nodup ∧
      (∀ r, r ∈ (ProtectionNeed.add ⟨HIGH, ["x"]⟩ ⟨HIGH, ["y"]⟩).remarks ↔
        r ∈ ["x"] ∨ r ∈ ["y"])) :=
  ⟨(combine_order_and_tie_union ⟨NORMAL, ["x"]⟩ ⟨HIGH, ["y"]⟩).1 (by decide),
   (combine_order_and_tie_union ⟨VERY_HIGH, ["x"]⟩ ⟨HIGH, ["y"]⟩).2.1 (by decide),
   (combine_order_and_tie_union ⟨HIGH, ["x"]⟩ ⟨HIGH, ["y"]⟩).2.2.1 (by decide)⟩

/-- C7 counterexample: a ProtectionNeed constructed directly from a
remark sequence containing a duplicate keeps the duplicate
(`__init__` stores `list(remarks)` verbatim), violating the claimed
invariant. -/
theorem init_remarks_duplicate_counterexample :
    ¬ (ProtectionNeed.mk NORMAL ["a", "a"]).remarks.Nodup := by decide

/-- C7 (amended): values produced by `combine` from arguments with
duplicate-free remarks, and by `determine` from inputs all of whose
remark lists are duplicate-free, have duplicate-free remarks; direct
construction stores the given remark sequence verbatim, so duplicates
in the constructor arguments are kept. -/
theorem remarks_nodup_combine_determine :
    (∀ a b : ProtectionNeed, a.remarks.Nodup → b.remarks.Nodup →
      (ProtectionNeed.add a b).remarks.Nodup) ∧
    (∀ pns : List (Option ProtectionNeed),
      (∀ pn : ProtectionNeed, some pn ∈ pns → pn.remarks.Nodup) →
      ∀ pn, ProtectionNeed.determine pns = some pn → pn.remarks.Nodup) ∧
    (∀ (c : ProtectionNeedCategory) (rs : List String),
      (ProtectionNeed.mk c rs).remarks = rs) :=
  ⟨ProtectionNeed.add_remarks_nodup,
   fun pns hmem pn h =>
     ProtectionNeed.determineAux_remarks_nodup pns none hmem
       (fun _ hx => by cases hx) pn h,
   fun _ _ => rfl⟩

/-- Witness for C7's amended theorem at concrete inputs. -/
theorem remarks_nodup_combine_determine_witness :
    (ProtectionNeed.add ⟨HIGH, ["x"]⟩ ⟨HIGH, ["x", "y"]⟩).remarks.Nodup ∧
    ∀ pn, ProtectionNeed.determine [some ⟨HIGH, ["x"]⟩, none,
        some ⟨HIGH, ["x", "y"]⟩] = some pn → pn.remarks.Nodup :=
  ⟨remarks_nodup_combine_determine.1 ⟨HIGH, ["x"]⟩ ⟨HIGH, ["x", "y"]⟩
      (by decide) (by decide),
   fun pn h =>
     remarks_nodup_combine_determine.2.1
       [some ⟨HIGH, ["x"]⟩, none, some ⟨HIGH, ["x", "y"]⟩]
       (by
         intro q hq
         simp only [List.mem_cons, Option.some.injEq] at hq
         rcases hq with rfl | h | rfl | h
         · decide
         · cases h
         · decide
         · simp at h) pn h⟩

/-- Pointwise description of one assignment pass starting at counter
`k`: position `i` of the result is the original entry, updated to id
`k + i` exactly when its id was absent and it is not skipped. -/
theorem setStructureIdsFrom_get? :
    ∀ (l : List SEntry) (b : Bool) (k i : Nat),
      (setStructureIdsFrom b k l).get? i =
        (l.get? i).map (fun s =>
          if s.id.isNone && !(s.hidden && b) then { s with id := some (k + i) }
          else s)
  | [], b, k, i => by simp [setStructureIdsFrom]
  | s :: rest, b, k, 0 => by
    simp [setStructureIdsFrom]
  | s :: rest, b, k, i + 1 => by
    rw [setStructureIdsFrom]
    show (setStructureIdsFrom b (k + 1) rest).get? i = _
    rw [setStructureIdsFrom_get? rest b (k + 1) i]
    show _ = (rest.get? i).map _
    cases rest.get? i with
    | none => rfl
    | some x =>
      simp only [Option.map_some']
      have : k + 1 + i = k + (i + 1) := by omega
      rw [this]

/-- An assignment pass never changes an entry whose id is present. -/
theorem setStructureIdsFrom_assigned_noop :
    ∀ (l : List SEntry) (b : Bool) (k : Nat),
      (∀ e ∈ l, e.id ≠ none) → setStructureIdsFrom b k l = l
  | [], _, _, _ => rfl
  | s :: rest, b, k, h => by
    have hs : s.id ≠ none := h s (List.mem_cons_self _ _)
    have hfalse : s.id.isNone = false := by
      cases hid : s.id
      · exact absurd hid hs
      · rfl
    rw [setStructureIdsFrom, hfalse,
      setStructureIdsFrom_assigned_noop rest b (k + 1)
        (fun e he => h e (List.mem_cons_of_mem _ he))]
    simp

/-- With no hidden entry, skipping hidden entries changes nothing. -/
theorem setStructureIdsFrom_no_hidden :
    ∀ (l : List SEntry) (k : Nat),
      (∀ e ∈ l, e.hidden = false) →
      setStructureIdsFrom true k l = setStructureIdsFrom false k l
  | [], _, _ => rfl
  | s :: rest, k, h => by
    rw [setStructureIdsFrom, setStructureIdsFrom]
    rw [h s (List.mem_cons_self _ _)]
    rw [setStructureIdsFrom_no_hidden rest (k + 1)
      (fun e he => h e (List.mem_cons_of_mem _ he))]
    simp

/-- C8: identifier assignment gives each node whose id is absent its
1-based ordinal position in the original sequence; with skip-hidden, a
hidden unassigned node is left absent (a gap) while every other node
gets exactly the value it would get without skipping; re-running on a
fully assigned layer is a no-op; skip-hidden on a layer with no hidden
node is identical to not skipping. -/
theorem setStructureIds_positional (l : List SEntry) :
    (∀ (b : Bool) (i : Nat) (s : SEntry), l.get? i = some s → s.id = none →
      (s.hidden && b) = false →
      (setStructureIds l b).get? i = some { s with id := some (i + 1) }) ∧
    (∀ (i : Nat) (s : SEntry), l.get? i = some s → s.id = none →
      s.hidden = true → (setStructureIds l true).get? i = some s) ∧
    (∀ (b : Bool) (i : Nat) (s : SEntry), l.get? i = some s → s.id ≠ none →
      (setStructureIds l b).get? i = some s) ∧
    (∀ (i : Nat) (s : SEntry), l.get? i = some s → s.hidden = false →
      (setStructureIds l true).get? i = (setStructureIds l false).get? i) ∧
    (∀ b : Bool, (∀ e ∈ l, e.id ≠ none) → setStructureIds l b = l) ∧
    ((∀ e ∈ l, e.hidden = false) →
      setStructureIds l true = setStructureIds l false) := by
  refine ⟨?_, ?_, ?_, ?_, ?_, ?_⟩
  · intro b i s hs hid hskip
    rw [setStructureIds, setStructureIdsFrom_get? l b 1 i, hs]
    simp only [Option.map_some']
    rw [if_pos (by simp [hid, hskip])]
    rw [Nat.add_comm 1 i]
  · intro i s hs hid hhid
    rw [setStructureIds, setStructureIdsFrom_get? l true 1 i, hs]
    simp only [Option.map_some']
    rw [if_neg (by simp [hhid])]
  · intro b i s hs hid
    rw [setStructureIds, setStructureIdsFrom_get? l b 1 i, hs]
    simp only [Option.map_some']
    have : s.id.isNone = false := by
      cases h : s.id
      · exact absurd h hid
      · rfl
    rw [if_neg (by simp [this])]
  · intro i s hs hhid
    rw [setStructureIds, setStructureIds,
      setStructureIdsFrom_get? l true 1 i, setStructureIdsFrom_get? l false 1 i,
      hs]
    simp [hhid]
  · intro b h
    exact setStructureIdsFrom_assigned_noop l b 1 h
  · intro h
    exact setStructureIdsFrom_no_hidden l 1 h

/-- Witness for C8 on a concrete layer, discharging each hypothesis:
an unassigned visible node gets its position, a hidden one is skipped,
an assigned one keeps its id, and the stability parts hold on concrete
layers. -/
theorem setStructureIds_positional_witness :
    (setStructureIds [⟨none, false⟩, ⟨none, true⟩, ⟨none, false⟩] true).get? 2 =
        some ⟨some 3, false⟩ ∧
    (setStructureIds [⟨none, false⟩, ⟨none, true⟩, ⟨none, false⟩] true).get? 1 =
        some ⟨none, true⟩ ∧
    (setStructureIds [⟨some 7, false⟩] false).get? 0 = some ⟨some 7, false⟩ ∧
    (setStructureIds [⟨none, false⟩, ⟨none, true⟩, ⟨none, false⟩] true).get? 0 =
        (setStructureIds [⟨none, false⟩, ⟨none, true⟩, ⟨none, false⟩] false).get? 0 ∧
    setStructureIds [⟨some 1, true⟩, ⟨some 5, false⟩] true =
        [⟨some 1, true⟩, ⟨some 5, false⟩] ∧
    setStructureIds [⟨none, false⟩, ⟨some 2, false⟩] true =
        setStructureIds [⟨none, false⟩, ⟨some 2, false⟩] false :=
  ⟨(setStructureIds_positional _).1 true 2 ⟨none, false⟩ (by decide) (by decide)
      (by decide),
   (setStructureIds_positional _).2.1 1 ⟨none, true⟩ (by decide) (by decide)
      (by decide),
   (setStructureIds_positional _).2.2.1 false 0 ⟨some 7, false⟩ (by decide)
      (by decide),
   (setStructureIds_positional _).2.2.2.1 0 ⟨none, false⟩ (by decide) (by decide),
   (setStructureIds_positional _).2.2.2.2.1 true (by decide),
   (setStructureIds_positional _).2.2.2.2.2 (by decide)⟩

/-- The fieldnames fold starting from `fn` yields `fn` itself or one
of the records, is no shorter than `fn`, and is at least as long as
every record. -/
theorem csvFieldnames_foldl_spec :
    ∀ (records : List (List String)) (fn : List String),
      (records.foldl
          (fun fieldnames keys =>
            if fieldnames.length < keys.length then keys else fieldnames) fn = fn ∨
        records.foldl
          (fun fieldnames keys =>
            if fieldnames.length < keys.length then keys else fieldnames) fn
          ∈ records) ∧
      fn.length ≤
        (records.foldl
          (fun fieldnames keys =>
            if fieldnames.length < keys.length then keys else fieldnames) fn).length ∧
      (∀ rec ∈ records,
        rec.length ≤
          (records.foldl
            (fun fieldnames keys =>
              if fieldnames.length < keys.length then keys else fieldnames)
            fn).length)
  | [], fn => ⟨Or.inl rfl, le_refl _, by simp⟩
  | r :: rs, fn => by
    obtain ⟨h1, h2, h3⟩ :=
      csvFieldnames_foldl_spec rs (if fn.length < r.length then r else fn)
    rw [List.foldl_cons]
    have hfn : fn.length ≤ (if fn.length < r.length then r else fn).length := by
      split
      · omega
      · exact le_refl _
    have hr : r.length ≤ (if fn.length < r.length then r else fn).length := by
      split
      · exact le_refl _
      · omega
    refine ⟨?_, le_trans hfn h2, ?_⟩
    · rcases h1 with h1 | h1
      · rw [h1]
        split
        · exact Or.inr (List.mem_cons_self _ _)
        · exact Or.inl rfl
      · exact Or.inr (List.mem_cons_of_mem _ h1)
    · intro rec hrec
      rcases List.mem_cons.mp hrec with rfl | hrec
      · exact le_trans hr h2
      · exact h3 rec hrec

/-- C9 counterexample: with emitted rows whose key lists are `["b"]`
and `["a", "b"]`, the code's header is `["a", "b"]` (the longest row's
keys) while the first-seen-order union of keys is `["b", "a"]`. -/
theorem csvHeader_union_counterexample :
    ¬ (csvHeader [⟨false, ["b"]⟩, ⟨false, ["a", "b"]⟩] false =
       unionFirstSeen (emittedRecords [⟨false, ["b"]⟩, ⟨false, ["a", "b"]⟩]
         false)) := by decide

/-- C9 (amended): one row is emitted per non-skipped node via its
record projection, and the header row is the key list of one of the
emitted rows (empty when none is emitted) with at least as many keys
as every emitted row — the loop keeps the current fieldnames until a
row with strictly more keys appears; it is NOT in general the
first-seen-order union of the emitted rows' keys. -/
theorem csvHeader_longest_emitted_row (structures : List CsvRow)
    (skipHidden : Bool) :
    (emittedRecords structures skipHidden =
      (structures.filter (fun s => !(s.hidden && skipHidden))).map
        CsvRow.record) ∧
    (csvHeader structures skipHidden = [] ∨
      csvHeader structures skipHidden ∈ emittedRecords structures skipHidden) ∧
    (∀ rec ∈ emittedRecords structures skipHidden,
      rec.length ≤ (csvHeader structures skipHidden).length) := by
  obtain ⟨h1, _, h3⟩ :=
    csvFieldnames_foldl_spec (emittedRecords structures skipHidden) []
  exact ⟨rfl, h1, h3⟩

/-- Witness for C9's amended theorem on a concrete layer. -/
theorem csvHeader_longest_emitted_row_witness :
    (["b"] : List String).length ≤
      (csvHeader [⟨false, ["b"]⟩, ⟨true, ["a", "b"]⟩] true).length :=
  (csvHeader_longest_emitted_row [⟨false, ["b"]⟩, ⟨true, ["a", "b"]⟩]
    true).2.2 ["b"] (by decide)

namespace Structure

/-- Once the accumulated effective hidden flag is `true`, every node
reached below it reports effective hidden `true`. -/
theorem hiddenEffAt_true_of_acc_true :
    ∀ (q : List Nat) (t : Structure) (b : Bool),
      hiddenEffAt true t q = some b → b = true
  | [], t, b, h => by
    rw [hiddenEffAt] at h
    cases h
    simp [hiddenEff]
  | i :: is, t, b, h => by
    rw [hiddenEffAt] at h
    cases hget : t.directChildren.get? i with
    | none => rw [hget] at h; cases h
    | some c =>
      rw [hget] at h
      have : hiddenEff true t = true := by simp [hiddenEff]
      rw [this] at h
      exact hiddenEffAt_true_of_acc_true is c b h

/-- If the node at path `p` has effective hidden `true`, so does every
node at an extension of `p`. -/
theorem hiddenEffAt_mono :
    ∀ (p q : List Nat) (t : Structure) (ph : Bool),
      hiddenEffAt ph t p = some true →
      ∀ b, hiddenEffAt ph t (p ++ q) = some b → b = true
  | [], q, t, ph, hp, b, hq => by
    rw [hiddenEffAt] at hp
    have hp' : hiddenEff ph t = true := Option.some.inj hp
    cases q with
    | nil =>
      rw [List.nil_append, hiddenEffAt] at hq
      rw [← Option.some.inj hq]
      exact hp'
    | cons i is =>
      rw [List.nil_append, hiddenEffAt] at hq
      cases hget : t.directChildren.get? i with
      | none => rw [hget] at hq; cases hq
      | some c =>
        rw [hget] at hq
        rw [hp'] at hq
        exact hiddenEffAt_true_of_acc_true is c b hq
  | i :: is, q, t, ph, hp, b, hq => by
    rw [hiddenEffAt] at hp
    rw [List.cons_append, hiddenEffAt] at hq
    cases hget : t.directChildren.get? i with
    | none => rw [hget] at hp; cases hp
    | some c =>
      rw [hget] at hp hq
      exact hiddenEffAt_mono is q c (hiddenEff ph t) hp b hq

/-- The effective hidden flag at a child path is the parent's
effective hidden flag or-ed with the child's own flag. -/
theorem hiddenEffAt_snoc :
    ∀ (p : List Nat) (t : Structure) (ph : Bool) (s c : Structure) (i : Nat),
      subtreeAt t p = some s → s.directChildren.get? i = some c →
      ∀ hp, hiddenEffAt ph t p = some hp →
        hiddenEffAt ph t (p ++ [i]) = some (hp || c.ownHidden)
  | [], t, ph, s, c, i, hsub, hget, hp, hhp => by
    rw [subtreeAt] at hsub
    cases hsub
    rw [hiddenEffAt] at hhp
    cases hhp
    rw [List.nil_append]
    simp only [hiddenEffAt, hget]
    rfl
  | j :: js, t, ph, s, c, i, hsub, hget, hp, hhp => by
    rw [subtreeAt] at hsub
    rw [hiddenEffAt] at hhp
    rw [List.cons_append]
    cases hgetj : t.directChildren.get? j with
    | none => rw [hgetj] at hsub; cases hsub
    | some cj =>
      rw [hgetj] at hsub hhp
      simp only [hiddenEffAt, hgetj]
      exact hiddenEffAt_snoc js cj (hiddenEff ph t) s c i hsub hget hp hhp

end Structure

/-- C6: the effective hidden flag of a node is the logical OR of its
own flag and its parent's effective hidden flag (`false` at a root),
and consequently if any node's effective hidden is true then so is
that of every structural descendant. -/
theorem hidden_or_parent_and_monotone :
    (∀ (t : Structure), Structure.hiddenEffAt false t [] =
      some (false || t.ownHidden)) ∧
    (∀ (t : Structure) (p : List Nat) (s c : Structure) (i : Nat),
      Structure.subtreeAt t p = some s →
      s.directChildren.get? i = some c →
      ∀ hp, Structure.hiddenEffAt false t p = some hp →
        Structure.hiddenEffAt false t (p ++ [i]) = some (hp || c.ownHidden)) ∧
    (∀ (t : Structure) (p q : List Nat),
      Structure.hiddenEffAt false t p = some true →
      ∀ b, Structure.hiddenEffAt false t (p ++ q) = some b → b = true) :=
  ⟨fun t => rfl,
   fun t p s c i hsub hget hp hhp =>
     Structure.hiddenEffAt_snoc p t false s c i hsub hget hp hhp,
   fun t p q hp b hq => Structure.hiddenEffAt_mono p q t false hp b hq⟩

/-- Witness for C6 on a concrete tree: the hidden root makes the
grandchild's effective hidden true although its own flag is false. -/
theorem hidden_or_parent_and_monotone_witness :
    Structure.hiddenEffAt false
        (.node 0 true none [.node 1 false none [.node 2 false none []]])
        ([] ++ [0]) =
      some (true || false) ∧
    ∀ b, Structure.hiddenEffAt false
        (.node 0 true none [.node 1 false none [.node 2 false none []]])
        ([0] ++ [0]) = some b → b = true :=
  ⟨hidden_or_parent_and_monotone.2.1
      (.node 0 true none [.node 1 false none [.node 2 false none []]])
      [] (.node 0 true none [.node 1 false none [.node 2 false none []]])
      (.node 1 false none [.node 2 false none []]) 0
      rfl rfl true rfl,
   fun b h => hidden_or_parent_and_monotone.2.2
      (.node 0 true none [.node 1 false none [.node 2 false none []]])
      [0] [0] rfl b h⟩

namespace Structure

/-- The effective need at a child path is the child's aggregation
seeded with its parent's RAW declared need. -/
theorem effectiveNeedAt_snoc :
    ∀ (p : List Nat) (t : Structure) (pd : Option ProtectionNeed)
      (s c : Structure) (i : Nat),
      subtreeAt t p = some s → s.directChildren.get? i = some c →
      effectiveNeedAt pd t (p ++ [i]) = some (effectiveNeed s.need c)
  | [], t, pd, s, c, i, hsub, hget => by
    rw [subtreeAt] at hsub
    cases hsub
    rw [List.nil_append]
    simp only [effectiveNeedAt, hget]
  | j :: js, t, pd, s, c, i, hsub, hget => by
    rw [subtreeAt] at hsub
    rw [List.cons_append]
    cases hgetj : t.directChildren.get? j with
    | none => rw [hgetj] at hsub; cases hsub
    | some cj =>
      rw [hgetj] at hsub
      simp only [effectiveNeedAt, hgetj]
      exact effectiveNeedAt_snoc js cj t.need s c i hsub hget

end Structure

/-- C2: the effective need of a node with a parent takes as parent
contribution the parent's OWN declared need: the effective value at
any node strictly below the root is independent of the declared need
handed to the root from above (so a grandparent's declaration does not
reach a grandchild), the effective value of a child is its aggregation
seeded with the parent's raw declared value (both for plain and for
secondary structural nodes), and concretely a grandchild below an
undeclared parent is absent even though the grandparent declares,
while it inherits the parent's declaration as soon as the parent
itself declares. -/
theorem effective_uses_parent_raw_declaration :
    (∀ (pd qd : Option ProtectionNeed) (t : Structure) (i : Nat)
      (is : List Nat),
      Structure.effectiveNeedAt pd t (i :: is) =
        Structure.effectiveNeedAt qd t (i :: is)) ∧
    (∀ (f : List Structure) (pd qd : Option ProtectionNeed)
      (t : SecondaryStructure) (i : Nat) (is : List Nat),
      SecondaryStructure.effectiveNeedAt f pd t (i :: is) =
        SecondaryStructure.effectiveNeedAt f qd t (i :: is)) ∧
    (∀ (p : List Nat) (t : Structure) (pd : Option ProtectionNeed)
      (s c : Structure) (i : Nat),
      Structure.subtreeAt t p = some s →
      s.directChildren.get? i = some c →
      Structure.effectiveNeedAt pd t (p ++ [i]) =
        some (Structure.effectiveNeed s.need c)) ∧
    (∀ v : ProtectionNeed, Structure.effectiveNeedAt none
      (.node 0 false (some v) [.node 1 false none [.node 2 false none []]])
      [0, 0] = some none) ∧
    (∀ v w : ProtectionNeed, Structure.effectiveNeedAt none
      (.node 0 false (some v)
        [.node 1 false (some w) [.node 2 false none []]])
      [0, 0] = some (some w)) := by
  refine ⟨fun pd qd t i is => ?_, fun f pd qd t i is => ?_,
    Structure.effectiveNeedAt_snoc, fun v => rfl, fun v w => ?_⟩
  · rw [Structure.effectiveNeedAt, Structure.effectiveNeedAt]
  · rw [SecondaryStructure.effectiveNeedAt, SecondaryStructure.effectiveNeedAt]
  · show some (Structure.effectiveNeed (some w) (.node 2 false none [])) = _
    rw [Structure.effectiveNeed]
    show ProtectionNeed.determine [some w, none] = some (some w)
    rfl

/-- Witness for C2 on a concrete three-level chain. -/
theorem effective_uses_parent_raw_declaration_witness :
    Structure.effectiveNeedAt none
      (.node 0 false (some ⟨HIGH, ["g"]⟩)
        [.node 1 false (some ⟨NORMAL, ["p"]⟩) []])
      ([0] ++ [0] : List Nat) = none ∨
    Structure.effectiveNeedAt (some ⟨VERY_HIGH, ["x"]⟩)
      (.node 0 false (some ⟨HIGH, ["g"]⟩)
        [.node 1 false (some ⟨NORMAL, ["p"]⟩) []])
      ([] ++ [0]) =
      some (Structure.effectiveNeed (some ⟨HIGH, ["g"]⟩)
        (.node 1 false (some ⟨NORMAL, ["p"]⟩) [])) :=
  Or.inr (effective_uses_parent_raw_declaration.2.2.1 []
    (.node 0 false (some ⟨HIGH, ["g"]⟩)
      [.node 1 false (some ⟨NORMAL, ["p"]⟩) []])
    (some ⟨VERY_HIGH, ["x"]⟩)
    (.node 0 false (some ⟨HIGH, ["g"]⟩)
      [.node 1 false (some ⟨NORMAL, ["p"]⟩) []])
    (.node 1 false (some ⟨NORMAL, ["p"]⟩) []) 0 rfl rfl)

namespace Structure

/-- Membership in the collected `children` of a list of subtrees:
either a listed subtree itself or a member of its collected children. -/
theorem mem_childrenSetList_iff (s : Structure) :
    ∀ cs : List Structure,
      s ∈ childrenSetList cs ↔ ∃ c ∈ cs, s = c ∨ s ∈ childrenSet c
  | [] => by simp [childrenSetList]
  | c :: cs => by
    rw [childrenSetList]
    simp only [List.mem_append, List.mem_cons,
      mem_childrenSetList_iff s cs]
    constructor
    · rintro ((rfl | hs) | ⟨c', hc', hcase⟩)
      · exact ⟨s, Or.inl rfl, Or.inl rfl⟩
      · exact ⟨c, Or.inl rfl, Or.inr hs⟩
      · exact ⟨c', Or.inr hc', hcase⟩
    · rintro ⟨c', (rfl | hc'), hcase⟩
      · rcases hcase with rfl | hs
        · exact Or.inl (Or.inl rfl)
        · exact Or.inl (Or.inr hs)
      · exact Or.inr ⟨c', hc', hcase⟩

/-- A node is in the collected `children` of `t` exactly when some
nonempty child-index path of `t` reaches it. -/
theorem mem_childrenSet_iff_path (t s : Structure) :
    s ∈ childrenSet t ↔ ∃ p, p ≠ [] ∧ subtreeAt t p = some s := by
  cases t with
  | node l h d cs =>
    rw [childrenSet, mem_childrenSetList_iff]
    constructor
    · rintro ⟨c, hc, hcase⟩
      obtain ⟨i, hi⟩ := List.get?_of_mem hc
      rcases hcase with rfl | hs
      · refine ⟨[i], by simp, ?_⟩
        rw [subtreeAt.eq_def]
        simp only [directChildren, hi]
        rw [subtreeAt]
      · have hsz : sizeOf c < sizeOf (Structure.node l h d cs) := by
          have := List.sizeOf_lt_of_mem hc
          simp
          omega
        obtain ⟨p, hp, hsub⟩ := (mem_childrenSet_iff_path c s).mp hs
        refine ⟨i :: p, by simp, ?_⟩
        rw [subtreeAt.eq_def]
        simp only [directChildren, hi]
        exact hsub
    · rintro ⟨p, hp, hsub⟩
      cases p with
      | nil => exact absurd rfl hp
      | cons i is =>
        rw [subtreeAt.eq_def] at hsub
        simp only [directChildren] at hsub
        cases hget : cs.get? i with
        | none => rw [hget] at hsub; cases hsub
        | some c =>
          rw [hget] at hsub
          simp only at hsub
          have hcmem : c ∈ cs := List.get?_mem hget
          cases is with
          | nil =>
            rw [subtreeAt] at hsub
            cases hsub
            exact ⟨s, hcmem, Or.inl rfl⟩
          | cons j js =>
            have hsz : sizeOf c < sizeOf (Structure.node l h d cs) := by
              have := List.sizeOf_lt_of_mem hcmem
              simp
              omega
            have hmem := (mem_childrenSet_iff_path c s).mpr
              ⟨j :: js, by simp, hsub⟩
            exact ⟨c, hcmem, Or.inr hmem⟩
termination_by sizeOf t

end Structure

/-- C10: the public `children` property yields exactly the strict
structural descendants of a node — the nodes reachable by a nonempty
chain of child steps, not only the direct children — and yields
nothing for a leaf. -/
theorem children_property_strict_descendants :
    (∀ t s : Structure, s ∈ Structure.childrenSet t ↔
      ∃ p, p ≠ [] ∧ Structure.subtreeAt t p = some s) ∧
    (∀ (l : Nat) (h : Bool) (d : Option ProtectionNeed),
      Structure.childrenSet (.node l h d []) = []) :=
  ⟨Structure.mem_childrenSet_iff_path,
   fun l h d => rfl⟩

namespace ProtectionNeed

/-- The category of `add a b` is one of the two input categories. -/
theorem add_category_or (a b : ProtectionNeed) :
    (add a b).category = a.category ∨ (add a b).category = b.category := by
  rw [add]
  split
  · exact Or.inr rfl
  · split
    · exact Or.inl rfl
    · exact Or.inl rfl

/-- The level of `add a b` is the maximum of the input levels. -/
theorem add_category_level (a b : ProtectionNeed) :
    (add a b).category.level =
      max a.category.level b.category.level := by
  rw [add]
  split
  · omega
  · split
    · omega
    · show a.category.level = _
      omega

/-- Among the three module-level category constants, the level
determines the category. -/
theorem constants_level_inj (c₁ c₂ : ProtectionNeedCategory)
    (h₁ : c₁ ∈ categoryConstants) (h₂ : c₂ ∈ categoryConstants)
    (h : c₁.level = c₂.level) : c₁ = c₂ := by
  simp only [categoryConstants, List.mem_cons, List.mem_singleton,
    List.not_mem_nil, or_false] at h₁ h₂
  rcases h₁ with rfl | rfl | rfl <;> rcases h₂ with rfl | rfl | rfl <;>
    first
      | rfl
      | exact absurd h (by decide)

/-- `add` keeps categories within the module constants. -/
theorem add_category_mem (a b : ProtectionNeed)
    (ha : a.category ∈ categoryConstants)
    (hb : b.category ∈ categoryConstants) :
    (add a b).category ∈ categoryConstants := by
  rcases add_category_or a b with h | h <;> rw [h]
  · exact ha
  · exact hb

/-- One step of the `determine` loop is value-equal to one step of the
spec's left fold: if the accumulators are value-equal, then combining
the next value on the left (as `__iadd__` does) is value-equal to
combining it on the right (as the spec's left fold does). -/
theorem add_step_congr (p a b : ProtectionNeed)
    (hp : p.category ∈ categoryConstants)
    (ha : a.category ∈ categoryConstants)
    (hab : sameNeed (some a) (some b)) :
    sameNeed (some (add p a)) (some (add b p)) := by
  obtain ⟨hcat, hrem⟩ := hab
  have hlvl : a.category.level = b.category.level := by rw [hcat]
  rcases Nat.lt_trichotomy p.category.level a.category.level with h | h | h
  · have e₁ : add p a = a := by
      rw [add, if_pos h]
    have e₂ : add b p = b := by
      rw [add, if_neg (by omega), if_pos (by omega)]
    rw [e₁, e₂]
    exact ⟨hcat, hrem⟩
  · have e₁ : add p a = ⟨p.category, (p.remarks ++ a.remarks).dedup⟩ := by
      rw [add, if_neg (by omega), if_neg (by omega)]
    have e₂ : add b p = ⟨b.category, (b.remarks ++ p.remarks).dedup⟩ := by
      rw [add, if_neg (by omega), if_neg (by omega)]
    rw [e₁, e₂]
    refine ⟨?_, ?_⟩
    · show p.category = b.category
      refine constants_level_inj _ _ hp (hcat ▸ ha) ?_
      omega
    · intro r
      show r ∈ (p.remarks ++ a.remarks).dedup ↔
        r ∈ (b.remarks ++ p.remarks).dedup
      rw [List.mem_dedup, List.mem_dedup, List.mem_append, List.mem_append]
      rw [hrem r]
      tauto
  · have e₁ : add p a = p := by
      rw [add, if_neg (by omega), if_pos h]
    have e₂ : add b p = p := by
      rw [add, if_pos (by omega)]
    rw [e₁, e₂]
    exact ⟨rfl, fun r => Iff.rfl⟩

/-- The `determine` loop from a present accumulator is value-equal to
the spec's left fold from a value-equal seed. -/
theorem determineAux_equiv_foldl :
    ∀ (pns : List (Option ProtectionNeed)) (a b : ProtectionNeed),
      sameNeed (some a) (some b) →
      a.category ∈ categoryConstants →
      (∀ pn : ProtectionNeed, some pn ∈ pns →
        pn.category ∈ categoryConstants) →
      sameNeed (determineAux (some a) pns)
        (some ((pns.filterMap id).foldl add b))
  | [], a, b, hab, _, _ => hab
  | none :: rest, a, b, hab, ha, hmem =>
    determineAux_equiv_foldl rest a b hab ha
      (fun pn hpn => hmem pn (List.mem_cons_of_mem _ hpn))
  | some p :: rest, a, b, hab, ha, hmem => by
    have hp : p.category ∈ categoryConstants :=
      hmem p (List.mem_cons_self _ _)
    have step := add_step_congr p a b hp ha hab
    have hmem' : ∀ pn : ProtectionNeed, some pn ∈ rest →
        pn.category ∈ categoryConstants :=
      fun pn hpn => hmem pn (List.mem_cons_of_mem _ hpn)
    have hadd : (add p a).category ∈ categoryConstants := by
      obtain ⟨hcat, _⟩ := hab
      exact add_category_mem p a hp ha
    exact determineAux_equiv_foldl rest (add p a) (add b p) step hadd hmem'

/-- `determine` is value-equal to the spec's left fold of `add` over
the present values in argument order. -/
theorem determine_equiv_specFold :
    ∀ pns : List (Option ProtectionNeed),
      (∀ pn : ProtectionNeed, some pn ∈ pns →
        pn.category ∈ categoryConstants) →
      sameNeed (determine pns) (determineSpecFold pns)
  | [], _ => trivial
  | none :: rest, hmem =>
    determine_equiv_specFold rest
      (fun pn hpn => hmem pn (List.mem_cons_of_mem _ hpn))
  | some p :: rest, hmem => by
    have hp : p.category ∈ categoryConstants :=
      hmem p (List.mem_cons_self _ _)
    exact determineAux_equiv_foldl rest p p ⟨rfl, fun r => Iff.rfl⟩ hp
      (fun pn hpn => hmem pn (List.mem_cons_of_mem _ hpn))

/-- The category of the `determine` loop's result is a category of one
of the inputs (or of the seed), of maximal level. -/
theorem determineAux_level_max :
    ∀ (pns : List (Option ProtectionNeed)) (a pn : ProtectionNeed),
      determineAux (some a) pns = some pn →
      (pn.category = a.category ∨
        ∃ q : ProtectionNeed, some q ∈ pns ∧ pn.category = q.category) ∧
      a.category.level ≤ pn.category.level ∧
      (∀ q : ProtectionNeed, some q ∈ pns →
        q.category.level ≤ pn.category.level)
  | [], a, pn, h => by
    cases h
    exact ⟨Or.inl rfl, le_refl _, by simp⟩
  | none :: rest, a, pn, h => by
    obtain ⟨h1, h2, h3⟩ := determineAux_level_max rest a pn h
    refine ⟨?_, h2, ?_⟩
    · rcases h1 with h1 | ⟨q, hq, hcat⟩
      · exact Or.inl h1
      · exact Or.inr ⟨q, List.mem_cons_of_mem _ hq, hcat⟩
    · intro q hq
      rcases List.mem_cons.mp hq with hq | hq
      · cases hq
      · exact h3 q hq
  | some p :: rest, a, pn, h => by
    obtain ⟨h1, h2, h3⟩ := determineAux_level_max rest (add p a) pn h
    have hlvl := add_category_level p a
    refine ⟨?_, by omega, ?_⟩
    · rcases h1 with h1 | ⟨q, hq, hcat⟩
      · rcases add_category_or p a with hc | hc
        · exact Or.inr ⟨p, List.mem_cons_self _ _, h1.trans hc⟩
        · exact Or.inl (h1.trans hc)
      · exact Or.inr ⟨q, List.mem_cons_of_mem _ hq, hcat⟩
    · intro q hq
      rcases List.mem_cons.mp hq with hq | hq
      · cases hq
        omega
      · exact h3 q hq

/-- A present `determine` result carries the category of one of the
inputs, and that category's level is maximal among the inputs. -/
theorem determine_level_max :
    ∀ (pns : List (Option ProtectionNeed)) (pn : ProtectionNeed),
      determine pns = some pn →
      (∃ q : ProtectionNeed, some q ∈ pns ∧ pn.category = q.category) ∧
      (∀ q : ProtectionNeed, some q ∈ pns →
        q.category.level ≤ pn.category.level)
  | [], pn, h => by cases h
  | none :: rest, pn, h => by
    obtain ⟨h1, h2⟩ := determine_level_max rest pn h
    refine ⟨?_, ?_⟩
    · obtain ⟨q, hq, hcat⟩ := h1
      exact ⟨q, List.mem_cons_of_mem _ hq, hcat⟩
    · intro q hq
      rcases List.mem_cons.mp hq with hq | hq
      · cases hq
      · exact h2 q hq
  | some p :: rest, pn, h => by
    obtain ⟨h1, h2, h3⟩ := determineAux_level_max rest p pn h
    refine ⟨?_, ?_⟩
    · rcases h1 with h1 | ⟨q, hq, hcat⟩
      · exact ⟨p, List.mem_cons_self _ _, h1⟩
      · exact ⟨q, List.mem_cons_of_mem _ hq, hcat⟩
    · intro q hq
      rcases List.mem_cons.mp hq with hq | hq
      · cases hq
        exact h2
      · exact h3 q hq

end ProtectionNeed

/-- C5: with the program's three category constants, `determine` over
any argument list equals — as a value: same presence, same category,
same remark set — the left fold of `combine` over the non-absent
values in argument order; it is absent exactly when every input is
absent, and a present result's category is a maximum-level category
among the present inputs. -/
theorem determine_is_left_fold_of_combine
    (pns : List (Option ProtectionNeed))
    (hconst : ∀ pn : ProtectionNeed, some pn ∈ pns →
      pn.category ∈ categoryConstants) :
    sameNeed (ProtectionNeed.determine pns) (determineSpecFold pns) ∧
    (ProtectionNeed.determine pns = none ↔ ∀ x ∈ pns, x = none) ∧
    (∀ pn, ProtectionNeed.determine pns = some pn →
      (∃ q : ProtectionNeed, some q ∈ pns ∧ pn.category = q.category) ∧
      (∀ q : ProtectionNeed, some q ∈ pns →
        q.category.level ≤ pn.category.level)) :=
  ⟨ProtectionNeed.determine_equiv_specFold pns hconst,
   ProtectionNeed.determine_eq_none_iff pns,
   fun pn h => ProtectionNeed.determine_level_max pns pn h⟩

/-- Witness for C5 on a concrete argument list with a tie and a skip. -/
theorem determine_is_left_fold_of_combine_witness :
    sameNeed
      (ProtectionNeed.determine
        [some ⟨NORMAL, ["a"]⟩, none, some ⟨HIGH, ["b"]⟩, some ⟨HIGH, ["c"]⟩])
      (determineSpecFold
        [some ⟨NORMAL, ["a"]⟩, none, some ⟨HIGH, ["b"]⟩, some ⟨HIGH, ["c"]⟩]) ∧
    (ProtectionNeed.determine
        [some ⟨NORMAL, ["a"]⟩, none, some ⟨HIGH, ["b"]⟩, some ⟨HIGH, ["c"]⟩] =
        none ↔
      ∀ x ∈ [some (⟨NORMAL, ["a"]⟩ : ProtectionNeed), none,
          some ⟨HIGH, ["b"]⟩, some ⟨HIGH, ["c"]⟩], x = none) :=
  ⟨(determine_is_left_fold_of_combine _
      (by
        intro q hq
        simp only [List.mem_cons, Option.some.injEq] at hq
        rcases hq with rfl | h | rfl | rfl | h
        · decide
        · cases h
        · decide
        · decide
        · simp at h)).1,
   (determine_is_left_fold_of_combine _
      (by
        intro q hq
        simp only [List.mem_cons, Option.some.injEq] at hq
        rcases hq with rfl | h | rfl | rfl | h
        · decide
        · cases h
        · decide
        · decide
        · simp at h)).2.1⟩

/-- Membership in a fold of list-valued contributions. -/
theorem mem_foldr_append {α : Type} (g : α → List Nat) (x : Nat) :
    ∀ l : List α,
      x ∈ l.foldr (fun a acc => g a ++ acc) [] ↔ ∃ a ∈ l, x ∈ g a
  | [] => by simp
  | a :: l => by
    rw [List.foldr_cons, List.mem_append, mem_foldr_append g x l]
    simp

namespace SecondaryStructure

/-- Membership in the collected `children` of a list of secondary
subtrees. -/
theorem mem_childrenSetList_iff_sec (s : SecondaryStructure) :
    ∀ cs : List SecondaryStructure,
      s ∈ childrenSetList cs ↔ ∃ c ∈ cs, s = c ∨ s ∈ childrenSet c
  | [] => by simp [childrenSetList]
  | c :: cs => by
    rw [childrenSetList]
    simp only [List.mem_append, List.mem_cons,
      mem_childrenSetList_iff_sec s cs]
    constructor
    · rintro ((rfl | hs) | ⟨c', hc', hcase⟩)
      · exact ⟨s, Or.inl rfl, Or.inl rfl⟩
      · exact ⟨c, Or.inl rfl, Or.inr hs⟩
      · exact ⟨c', Or.inr hc', hcase⟩
    · rintro ⟨c', (rfl | hc'), hcase⟩
      · rcases hcase with rfl | hs
        · exact Or.inl (Or.inl rfl)
        · exact Or.inl (Or.inr hs)
      · exact Or.inr ⟨c', hc', hcase⟩

/-- Membership in the dependent closure: a contribution of a declared
dependent, or a member of the closure of some strict structural
descendant. -/
theorem mem_dependent_iff (f : List Structure) (t : SecondaryStructure)
    (x : Nat) :
    x ∈ dependent f t ↔
      (∃ l ∈ t.dependentRefs, x ∈ dependentContrib f l) ∨
      (∃ s ∈ childrenSet t, x ∈ dependent f s) := by
  rw [dependent]
  rw [List.mem_dedup, List.mem_append]
  rw [mem_foldr_append, mem_foldr_append]
  constructor
  · rintro (h | ⟨a, _, hx⟩)
    · exact Or.inl h
    · exact Or.inr ⟨a.1, a.2, hx⟩
  · rintro (h | ⟨s, hs, hx⟩)
    · exact Or.inl h
    · exact Or.inr ⟨⟨s, hs⟩, List.mem_attach _ _, hx⟩

/-- The closure of a strict structural descendant is contained in the
node's own closure. -/
theorem dependent_mono_of_mem_childrenSet (f : List Structure)
    (t s : SecondaryStructure) (hs : s ∈ childrenSet t) (x : Nat)
    (hx : x ∈ dependent f s) : x ∈ dependent f t :=
  (mem_dependent_iff f t x).mpr (Or.inr ⟨s, hs, hx⟩)

end SecondaryStructure

/-- C3: the dependent closure of a secondary node consists of the
contribution of every explicitly declared dependent (the dependent
itself plus all its structural descendants) together with every member
of the dependent closure of each DIRECT structural child — although
the code folds over all strict descendants, that union collapses to
the direct children's closures; e.g. for an Information `I` (with one
sub-node) declared as dependent of a Process `P`,
`D(P) = {I} ∪ descendants(I)`. -/
theorem dependent_closure_decomposition :
    (∀ (f : List Structure) (lab : Nat) (h : Bool)
       (d : Option ProtectionNeed) (deps : List Nat)
       (cs : List SecondaryStructure) (x : Nat),
      x ∈ SecondaryStructure.dependent f (.node lab h d deps cs) ↔
        (∃ l ∈ deps, x ∈ SecondaryStructure.dependentContrib f l) ∨
        (∃ c ∈ cs, x ∈ SecondaryStructure.dependent f c)) ∧
    SecondaryStructure.dependent
        [Structure.node 0 false (some ⟨VERY_HIGH, ["i"]⟩)
          [.node 5 false none []]]
        (.node 10 false none [0] []) = [0, 5] := by
  constructor
  · intro f lab h d deps cs x
    rw [SecondaryStructure.mem_dependent_iff]
    constructor
    · rintro (hdep | ⟨s, hs, hx⟩)
      · exact Or.inl hdep
      · rw [SecondaryStructure.childrenSet,
          SecondaryStructure.mem_childrenSetList_iff_sec] at hs
        obtain ⟨c, hc, hcase⟩ := hs
        rcases hcase with rfl | hsc
        · exact Or.inr ⟨s, hc, hx⟩
        · exact Or.inr ⟨c, hc,
            SecondaryStructure.dependent_mono_of_mem_childrenSet f c s hsc x hx⟩
    · rintro (hdep | ⟨c, hc, hx⟩)
      · exact Or.inl hdep
      · refine Or.inr ⟨c, ?_, hx⟩
        rw [SecondaryStructure.childrenSet,
          SecondaryStructure.mem_childrenSetList_iff_sec]
        exact ⟨c, hc, Or.inl rfl⟩
  · rw [SecondaryStructure.dependent]
    decide

namespace Structure

/-- `silentList` holds exactly when every listed subtree is silent. -/
theorem silentList_eq_true_iff :
    ∀ cs : List Structure,
      silentList cs = true ↔ ∀ c ∈ cs, silent c = true
  | [] => by simp [silentList]
  | c :: cs => by
    rw [silentList, Bool.and_eq_true, silentList_eq_true_iff cs]
    simp

/-- The elements of `effectiveNeedList` are the children's effective
needs. -/
theorem mem_effectiveNeedList_iff (pd : Option ProtectionNeed)
    (x : Option ProtectionNeed) :
    ∀ cs : List Structure,
      x ∈ effectiveNeedList pd cs ↔ ∃ c ∈ cs, x = effectiveNeed pd c
  | [] => by simp [effectiveNeedList]
  | c :: cs => by
    rw [effectiveNeedList, List.mem_cons, mem_effectiveNeedList_iff pd x cs]
    simp

/-- A plain node's effective need is absent exactly when the parent's
raw declaration is absent and the whole subtree is silent. -/
theorem effectiveNeed_eq_none_iff :
    ∀ (t : Structure) (pd : Option ProtectionNeed),
      effectiveNeed pd t = none ↔ pd = none ∧ silent t = true
  | .node l h d cs, pd => by
    rw [effectiveNeed, ProtectionNeed.determine_eq_none_iff, silent,
      Bool.and_eq_true, Option.isNone_iff_eq_none, silentList_eq_true_iff]
    constructor
    · intro hall
      have hpd : pd = none := hall pd (by simp)
      have hd : d = none := hall d (by simp)
      refine ⟨hpd, hd, ?_⟩
      intro c hc
      have hsz : sizeOf c < sizeOf (Structure.node l h d cs) := by
        have := List.sizeOf_lt_of_mem hc
        simp
        omega
      have hx : effectiveNeed d c = none :=
        hall _ (by
          simp only [List.mem_cons]
          exact Or.inr (Or.inr
            ((mem_effectiveNeedList_iff d _ cs).mpr ⟨c, hc, rfl⟩)))
      exact ((effectiveNeed_eq_none_iff c d).mp hx).2
    · rintro ⟨rfl, rfl, hsil⟩
      intro x hx
      simp only [List.mem_cons] at hx
      rcases hx with rfl | rfl | hx
      · rfl
      · rfl
      · obtain ⟨c, hc, rfl⟩ := (mem_effectiveNeedList_iff none x cs).mp hx
        have hsz : sizeOf c < sizeOf (Structure.node l h none cs) := by
          have := List.sizeOf_lt_of_mem hc
          simp
          omega
        exact (effectiveNeed_eq_none_iff c none).mpr ⟨rfl, hsil c hc⟩
termination_by t => sizeOf t

/-- A subtree is silent exactly when neither the node itself nor any
strict structural descendant declares the dimension. -/
theorem silent_iff_no_declared :
    ∀ t : Structure,
      silent t = true ↔ t.need = none ∧ ∀ s ∈ childrenSet t, s.need = none
  | .node l h d cs => by
    rw [silent, Bool.and_eq_true, Option.isNone_iff_eq_none,
      silentList_eq_true_iff, childrenSet]
    constructor
    · rintro ⟨rfl, hall⟩
      refine ⟨rfl, ?_⟩
      intro s hs
      obtain ⟨c, hc, hcase⟩ := (mem_childrenSetList_iff s cs).mp hs
      have hsz : sizeOf c < sizeOf (Structure.node l h none cs) := by
        have := List.sizeOf_lt_of_mem hc
        simp
        omega
      have hcsil := (silent_iff_no_declared c).mp (hall c hc)
      rcases hcase with rfl | hsc
      · exact hcsil.1
      · exact hcsil.2 s hsc
    · rintro ⟨hd, hall⟩
      refine ⟨hd, ?_⟩
      intro c hc
      have hsz : sizeOf c < sizeOf (Structure.node l h d cs) := by
        have := List.sizeOf_lt_of_mem hc
        simp
        omega
      refine (silent_iff_no_declared c).mpr ⟨?_, ?_⟩
      · exact hall c ((mem_childrenSetList_iff c cs).mpr ⟨c, hc, Or.inl rfl⟩)
      · intro s hs
        exact hall s
          ((mem_childrenSetList_iff s cs).mpr ⟨c, hc, Or.inr hs⟩)
termination_by t => sizeOf t

end Structure

namespace SecondaryStructure

/-- `silentList` (secondary) holds exactly when every listed subtree
is silent. -/
theorem silentList_eq_true_iff_sec :
    ∀ cs : List SecondaryStructure,
      silentList cs = true ↔ ∀ c ∈ cs, silent c = true
  | [] => by simp [silentList]
  | c :: cs => by
    rw [silentList, Bool.and_eq_true, silentList_eq_true_iff_sec cs]
    simp

/-- The elements of `effectiveNeedList` (secondary) are the children's
effective needs. -/
theorem mem_effectiveNeedList_iff_sec (f : List Structure)
    (pd : Option ProtectionNeed) (x : Option ProtectionNeed) :
    ∀ cs : List SecondaryStructure,
      x ∈ effectiveNeedList f pd cs ↔ ∃ c ∈ cs, x = effectiveNeed f pd c
  | [] => by simp [effectiveNeedList]
  | c :: cs => by
    rw [effectiveNeedList, List.mem_cons,
      mem_effectiveNeedList_iff_sec f pd x cs]
    simp

/-- A direct child is a member of the collected `children`. -/
theorem mem_childrenSet_of_direct (t c : SecondaryStructure)
    (hc : c ∈ t.directChildren) : c ∈ childrenSet t := by
  cases t with
  | node l h d deps cs =>
    rw [childrenSet, mem_childrenSetList_iff_sec]
    exact ⟨c, hc, Or.inl rfl⟩

/-- A secondary node's effective need is absent exactly when the
parent's raw declaration is absent, its structural subtree is silent,
and every member of its dependent closure has an absent effective
need. -/
theorem effectiveNeed_eq_none_iff_sec :
    ∀ (t : SecondaryStructure) (f : List Structure)
      (pd : Option ProtectionNeed),
      effectiveNeed f pd t = none ↔
        pd = none ∧ silent t = true ∧
        ∀ l ∈ dependent f t, Structure.effectiveNeedOfLabel f l = none
  | .node lab h d deps cs, f, pd => by
    rw [effectiveNeed, ProtectionNeed.determine_eq_none_iff, silent,
      Bool.and_eq_true, Option.isNone_iff_eq_none, silentList_eq_true_iff_sec]
    constructor
    · intro hall
      have hpd : pd = none := hall pd (by simp)
      have hd : d = none := hall d (by simp)
      have hdep : ∀ l ∈ dependent f (.node lab h d deps cs),
          Structure.effectiveNeedOfLabel f l = none := by
        intro l hl
        refine hall _ ?_
        simp only [List.mem_cons, List.mem_append]
        exact Or.inr (Or.inr (Or.inl (List.mem_map_of_mem _ hl)))
      refine ⟨hpd, ⟨hd, ?_⟩, hdep⟩
      intro c hc
      have hsz : sizeOf c <
          sizeOf (SecondaryStructure.node lab h d deps cs) := by
        have := List.sizeOf_lt_of_mem hc
        simp
        omega
      have hx : effectiveNeed f d c = none :=
        hall _ (by
          simp only [List.mem_cons, List.mem_append]
          exact Or.inr (Or.inr (Or.inr
            ((mem_effectiveNeedList_iff_sec f d _ cs).mpr ⟨c, hc, rfl⟩))))
      exact ((effectiveNeed_eq_none_iff_sec c f d).mp hx).2.1
    · rintro ⟨rfl, ⟨rfl, hsil⟩, hdep⟩
      intro x hx
      simp only [List.mem_cons, List.mem_append] at hx
      rcases hx with rfl | rfl | hx | hx
      · rfl
      · rfl
      · obtain ⟨l, hl, rfl⟩ := List.mem_map.mp hx
        exact hdep l hl
      · obtain ⟨c, hc, rfl⟩ :=
          (mem_effectiveNeedList_iff_sec f none x cs).mp hx
        have hsz : sizeOf c <
            sizeOf (SecondaryStructure.node lab h none deps cs) := by
          have := List.sizeOf_lt_of_mem hc
          simp
          omega
        refine (effectiveNeed_eq_none_iff_sec c f none).mpr
          ⟨rfl, hsil c hc, ?_⟩
        intro l hl
        refine hdep l ?_
        exact dependent_mono_of_mem_childrenSet f _ c
          (mem_childrenSet_of_direct (.node lab h none deps cs) c hc) l hl
termination_by t => sizeOf t

/-- A secondary subtree is silent exactly when neither the node itself
nor any strict structural descendant declares the dimension. -/
theorem silent_iff_no_declared_sec :
    ∀ t : SecondaryStructure,
      silent t = true ↔ t.need = none ∧ ∀ s ∈ childrenSet t, s.need = none
  | .node lab h d deps cs => by
    rw [silent, Bool.and_eq_true, Option.isNone_iff_eq_none,
      silentList_eq_true_iff_sec, childrenSet]
    constructor
    · rintro ⟨rfl, hall⟩
      refine ⟨rfl, ?_⟩
      intro s hs
      obtain ⟨c, hc, hcase⟩ := (mem_childrenSetList_iff_sec s cs).mp hs
      have hsz : sizeOf c <
          sizeOf (SecondaryStructure.node lab h none deps cs) := by
        have := List.sizeOf_lt_of_mem hc
        simp
        omega
      have hcsil := (silent_iff_no_declared_sec c).mp (hall c hc)
      rcases hcase with rfl | hsc
      · exact hcsil.1
      · exact hcsil.2 s hsc
    · rintro ⟨hd, hall⟩
      refine ⟨hd, ?_⟩
      intro c hc
      have hsz : sizeOf c <
          sizeOf (SecondaryStructure.node lab h d deps cs) := by
        have := List.sizeOf_lt_of_mem hc
        simp
        omega
      refine (silent_iff_no_declared_sec c).mpr ⟨?_, ?_⟩
      · exact hall c
          ((mem_childrenSetList_iff_sec c cs).mpr ⟨c, hc, Or.inl rfl⟩)
      · intro s hs
        exact hall s
          ((mem_childrenSetList_iff_sec s cs).mpr ⟨c, hc, Or.inr hs⟩)
termination_by t => sizeOf t

end SecondaryStructure

/-- C4 counterexample: a Process node with no declaration anywhere in
its own subtree and no parent declaration, but with a dependent
Information node declaring VeryHigh, has a PRESENT effective need —
the claimed "absent iff parent/self/descendants silent" fails for
SecondaryStructureNode instances. -/
theorem secondary_absent_iff_counterexample :
    ¬ (SecondaryStructure.effectiveNeed
          [Structure.node 0 false (some ⟨VERY_HIGH, ["i"]⟩) []] none
          (.node 10 false none [0] []) = none ↔
        ((none : Option ProtectionNeed) = none ∧
          SecondaryStructure.silent (.node 10 false none [0] []) = true)) := by
  intro hiff
  have habs := hiff.mpr ⟨rfl, by decide⟩
  have hval : SecondaryStructure.effectiveNeed
      [Structure.node 0 false (some ⟨VERY_HIGH, ["i"]⟩) []] none
      (.node 10 false none [0] []) = some ⟨VERY_HIGH, ["i"]⟩ := by
    rw [SecondaryStructure.effectiveNeed, SecondaryStructure.dependent]
    decide
  rw [hval] at habs
  cases habs

/-- C4 (amended): for plain Structure nodes, the effective need is
absent iff neither the parent's own declaration, the node itself, nor
any strict structural descendant declares the dimension; for
SecondaryStructureNode instances it is additionally required that
every member of the dependent closure has an absent effective need.
(`silent` means: the node and all strict structural descendants
declare nothing, as the first two conjuncts state.) -/
theorem effective_absent_iff_no_declaration :
    (∀ t : Structure, Structure.silent t = true ↔
      t.need = none ∧ ∀ s ∈ Structure.childrenSet t, s.need = none) ∧
    (∀ t : SecondaryStructure, SecondaryStructure.silent t = true ↔
      t.need = none ∧
        ∀ s ∈ SecondaryStructure.childrenSet t, s.need = none) ∧
    (∀ (t : Structure) (pd : Option ProtectionNeed),
      Structure.effectiveNeed pd t = none ↔
        pd = none ∧ Structure.silent t = true) ∧
    (∀ (t : SecondaryStructure) (f : List Structure)
      (pd : Option ProtectionNeed),
      SecondaryStructure.effectiveNeed f pd t = none ↔
        pd = none ∧ SecondaryStructure.silent t = true ∧
        ∀ l ∈ SecondaryStructure.dependent f t,
          Structure.effectiveNeedOfLabel f l = none) :=
  ⟨Structure.silent_iff_no_declared,
   SecondaryStructure.silent_iff_no_declared_sec,
   Structure.effectiveNeed_eq_none_iff,
   SecondaryStructure.effectiveNeed_eq_none_iff_sec⟩
